import Mathlib

/-!
Verification development for `polyloc.py` (PolyLoc: polygenic localization of
complex-trait heritability).

The file shallowly embeds the core logic of the script:

* the variant data model: the genotype universe is read from 22 per-chromosome
  `.bim` files (`polyloc.py`, lines 139-144) and the posterior-labelled bin
  matrix `self.df_bins` is produced by the external partitioner
  (`partition_snps_to_bins`, external to this repository); both are keyed by
  the VariantKey `SNP + A1 + A2`;
* `polyloc_partitions` (lines 133-169): the integrity check, the residual-bin
  construction and the bin-size aggregation;
* `compute_polyloc` (lines 173-193): the localization-curve computation;
* the stage-combination checks of `check_args` (lines 23-35).

Pandas data frames are embedded as a list of column names together with rows
carrying an explicit index key and a list of cells aligned with the columns
(the index is separate from the columns, exactly as in pandas).  Floating
point values are embedded as rationals; an `Option ℚ` value of `none` stands
for a non-finite float (NaN or ±Inf), which in the source can only arise from
a division by zero.
-/

namespace PolyLoc

/-- Values a data-frame cell can hold: strings (SNP ids, alleles), integers
(chromosome, base-pair position), rationals (genetic-map position) and
booleans (bin-membership indicators). -/
inductive Cell where
  | str  : String → Cell
  | int  : Int → Cell
  | rat  : ℚ → Cell
  | bool : Bool → Cell
deriving DecidableEq

/-- A pandas data frame: column names, and rows that each carry an index key
(a string, set from the VariantKey in this script) plus cells aligned with
the column list. -/
structure DFrame where
  cols : List String
  rows : List (String × List Cell)
deriving DecidableEq

/-- The string content of a cell (string cells only; the script concatenates
only string columns). -/
def cellStr : Cell → String
  | .str s => s
  | _ => ""

/-- Numeric value of a cell under summation, as in `DataFrame.sum`: booleans
count as 0/1.  Only boolean bin columns are ever summed by the script. -/
def cellVal : Cell → ℕ
  | .bool b => if b then 1 else 0
  | .int n => n.toNat
  | _ => 0

/-- Column lookup in a row: the cell at the column's position, mirroring
`df[c]` for one row.  The default is never reached for the frames the script
builds (the column is present and rows are aligned with the columns). -/
def getCellD (cols : List String) (cells : List Cell) (c : String) : Cell :=
  cells.getD (List.indexOf c cols) (Cell.str "")

/-- Modelled from the spec: `SNP_COLUMNS` is imported from `polyfun.py`,
which is not among the sources here.  Per the spec's data model the identity
columns of a variant are chromosome, SNP id, base-pair position and the two
alleles, in the bin matrix produced by the partitioner. -/
def SNP_COLUMNS : List String := ["CHR", "SNP", "BP", "A1", "A2"]

/-- One line of a `.bim` file: `pd.read_table(..., names=['CHR', 'SNP', 'CM',
'BP', 'A1', 'A2'])` (line 141). -/
structure BimRow where
  chr : Int
  snp : String
  cm : ℚ
  bp : Int
  a1 : String
  a2 : String
deriving DecidableEq

/-- Column names assigned to a `.bim` file on load (line 141). -/
def bimCols : List String := ["CHR", "SNP", "CM", "BP", "A1", "A2"]

/-- Cells of one `.bim` row, aligned with `bimCols`. -/
def bimCells (r : BimRow) : List Cell :=
  [.int r.chr, .str r.snp, .rat r.cm, .int r.bp, .str r.a1, .str r.a2]

/-- The VariantKey of a `.bim` row: `df_bim['SNP'] + df_bim['A1'] +
df_bim['A2']` (line 144). -/
def bimKey (r : BimRow) : String := r.snp ++ r.a1 ++ r.a2

/-- The concatenated genotype universe frame with its VariantKey index
(lines 139-144).  The argument is the concatenation of the 22 per-chromosome
`.bim` files, which the script builds with `pd.concat`. -/
def dfBimOf (uni : List BimRow) : DFrame :=
  ⟨bimCols, uni.map (fun r => (bimKey r, bimCells r))⟩

/-- The VariantKey of a bin-matrix row: `self.df_bins['SNP'] +
self.df_bins['A1'] + self.df_bins['A2']` (line 145), string concatenation of
the three identity cells. -/
def rowKey (cols : List String) (cells : List Cell) : String :=
  cellStr (getCellD cols cells "SNP") ++ cellStr (getCellD cols cells "A1") ++
    cellStr (getCellD cols cells "A2")

/-- Reindex a frame by its VariantKey (line 145): the index is recomputed
from the SNP/A1/A2 columns, the cells are untouched. -/
def setVariantIndex (df : DFrame) : DFrame :=
  ⟨df.cols, df.rows.map (fun r => (rowKey df.cols r.2, r.2))⟩

/-- The VariantKeys of a frame after reindexing; `keys(P)` for the posterior
bin matrix. -/
def posteriorKeys (df : DFrame) : List String :=
  df.rows.map (fun r => rowKey df.cols r.2)

/-- The VariantKeys of the genotype universe; `keys(U)`. -/
def uniKeys (uni : List BimRow) : List String := uni.map bimKey

/-- Column-set evolution of `df[c] = v`: overwrite in place when the column
exists, append it otherwise. -/
def setColsAfter (cols : List String) (c : String) : List String :=
  if c ∈ cols then cols else cols ++ [c]

/-- Row-cell evolution of `df[c] = v` for one row. -/
def setCell (cols : List String) (cells : List Cell) (c : String) (v : Cell) :
    List Cell :=
  if c ∈ cols then cells.set (List.indexOf c cols) v else cells ++ [v]

/-- `df[c] = v` on a whole frame: every row gets the scalar `v` in column
`c`; a new column is appended after the existing ones. -/
def setColAll (df : DFrame) (c : String) (v : Cell) : DFrame :=
  ⟨setColsAfter df.cols c, df.rows.map (fun r => (r.1, setCell df.cols r.2 c v))⟩

/-- The loop `for colname in self.df_bins.columns: df_bins_new[colname] =
False` (lines 155-156): assign `False` column by column, in order. -/
def setColsFalse (df : DFrame) (cs : List String) : DFrame :=
  cs.foldl (fun d c => setColAll d c (Cell.bool false)) df

/-- `df.drop(columns=bad)`: keep the other columns, in order. -/
def dropCols (df : DFrame) (bad : List String) : DFrame :=
  let keep := df.cols.filter (fun c => !(bad.contains c))
  ⟨keep, df.rows.map (fun r => (r.1, keep.map (getCellD df.cols r.2)))⟩

/-- `df.sum(axis=0)`: per-column sums over all rows, in column order. -/
def colSums (df : DFrame) : List ℕ :=
  (List.range df.cols.length).map
    (fun j => (df.rows.map (fun r => cellVal (r.2.getD j (Cell.str "")))).sum)

/-- The bin-size table of lines 166-168: index `np.arange(1, nbins+1)` named
`BIN`, column `BIN_SIZE` holding the per-column sums of the bin matrix with
the identity columns dropped. -/
def binsizeOf (df : DFrame) : List (ℕ × ℕ) :=
  (List.range' 1 (df.cols.length - SNP_COLUMNS.length)).zip
    (colSums (dropCols df SNP_COLUMNS))

/-- The `.binsize` file written by `to_csv(..., sep='\t', index=True)`
(line 169): a tab-separated header line `BIN`, `BIN_SIZE`, then one
tab-separated line per bin. -/
def binsizeCsv (t : List (ℕ × ℕ)) : List String :=
  ("BIN" ++ "\t" ++ "BIN_SIZE") ::
    t.map (fun p => toString p.1 ++ "\t" ++ toString p.2)

/-- Name of the bin column numbered `k`: `'snpvar_bin%d' % k` (line 157). -/
def residColName (k : ℕ) : String := "snpvar_bin" ++ toString k

/-- Body of the residual branch of `PolyLoc.polyloc_partitions` (lines
153-160).  For orientation, the whole function (lines 133-169) starts from
the bin matrix `df_bins0` returned by the external partitioner
(`partition_snps_to_bins`) and the concatenated genotype universe `uni`.

* Line 144-145: both frames are indexed by VariantKey.
* Line 148-149: if any posterior VariantKey is missing from the universe the
  function raises (modelled as `Except.error`) before anything is written,
  so an error value means that neither the bins file nor the binsize file is
  produced.
* Lines 152-160: when the universe frame has strictly more rows than the
  posterior bin matrix, a frame of the missing variants is built from the
  `SNP_COLUMNS` columns of the universe (`df_bim.loc[new_snps, SNP_COLUMNS]`,
  which for a duplicate-free universe index is the sub-frame of the rows
  whose key is new, in universe order); every column of the existing bin
  matrix is then assigned `False` on it, a fresh residual column is appended
  (`False` on the old rows, `True` on the new ones), and the two frames are
  concatenated.  `pd.concat` is row concatenation here because both frames
  carry the same columns in the same order.
* Lines 163-169: the bin matrix is saved and the bin-size table is derived
  from it; the pair returned models the two files written. -/
def residualAugment (dfBins1 : DFrame) (dfBim : DFrame) : DFrame :=
  let binsKeys := dfBins1.rows.map Prod.fst
  let newRows := dfBim.rows.filter (fun r => !(binsKeys.contains r.1))
  let dfBinsNew0 : DFrame :=
    ⟨SNP_COLUMNS, newRows.map (fun r => (r.1, SNP_COLUMNS.map (getCellD bimCols r.2)))⟩
  let dfBinsNew1 := setColsFalse dfBinsNew0 dfBins1.cols
  let newColname := residColName (dfBinsNew1.cols.length - SNP_COLUMNS.length + 1)
  let dfBins3 := setColAll dfBins1 newColname (Cell.bool false)
  let dfBinsNew2 := setColAll dfBinsNew1 newColname (Cell.bool true)
  ⟨dfBins3.cols, dfBins3.rows ++ dfBinsNew2.rows⟩

/-- The core of `PolyLoc.polyloc_partitions` (lines 133-169): index both
frames by VariantKey, run the integrity check of lines 148-149 (an error
value means the function raised before either output file was written), run
the residual branch of lines 152-160 when the universe frame has strictly
more rows, and return the assembled bin matrix together with the bin-size
table derived from it (the two files written at lines 163-169). -/
def polyloc_partitions (dfBins0 : DFrame) (uni : List BimRow) :
    Except String (DFrame × List (ℕ × ℕ)) :=
  let dfBim := dfBimOf uni
  let bimKeys := dfBim.rows.map Prod.fst
  let dfBins1 := setVariantIndex dfBins0
  if dfBins1.rows.any (fun r => !(bimKeys.contains r.1)) then
    .error "Found variants in posterior file that are not found in the plink files"
  else
    let dfBins2 :=
      if dfBim.rows.length > dfBins1.rows.length then residualAugment dfBins1 dfBim
      else dfBins1
    .ok (dfBins2, binsizeOf dfBins2)

/-- The tau estimates of lines 177-179: `jknife.est[0, :n_annot] / Nbar`,
the first `nAnnot` entries of the estimate row, divided by `Nbar`. -/
def tausOf (est : List ℚ) (nAnnot : ℕ) (nbar : ℚ) : List ℚ :=
  (est.take nAnnot).map (fun x => x / nbar)

/-- The product `taus * df_polyloc['BIN_SIZE']` (line 186), a numpy array
times a pandas Series.  Equal lengths multiply elementwise; a length-one
array broadcasts over the Series; any other combination raises a
`ValueError` (either numpy's broadcasting error or pandas' length-of-values
error on assignment), modelled as a single error value. -/
def broadcastMul (xs ys : List ℚ) : Except String (List ℚ) :=
  if xs.length = ys.length then .ok (List.zipWith (fun a b => a * b) xs ys)
  else
    match xs with
    | [x] => .ok (ys.map (fun b => x * b))
    | _ => .error "operands could not be broadcast together"

/-- Float division of line 187 (`/=` by the column total).  Division by a
zero total produces a non-finite float (NaN or ±Inf), never an exception;
`none` is the non-finite marker. -/
def optDiv (a b : ℚ) : Option ℚ := if b = 0 then none else some (a / b)

/-- Accumulator pass of `Series.cumsum()` (line 188): pandas cumsum skips
NaN entries (a non-finite entry stays non-finite in the output and does not
feed the running total). -/
def cumsumGo (acc : ℚ) : List (Option ℚ) → List (Option ℚ)
  | [] => []
  | none :: xs => none :: cumsumGo acc xs
  | some x :: xs => some (acc + x) :: cumsumGo (acc + x) xs

/-- `Series.cumsum()` over the `%H2` column. -/
def cumsum (l : List (Option ℚ)) : List (Option ℚ) := cumsumGo 0 l

/-- One row of the `.polyloc` output table: `BIN`, `BIN_SIZE`, `%H2`,
`SUM_%H2`. -/
structure PolylocRow where
  bin : ℕ
  binSize : ℚ
  pctH2 : Option ℚ
  sumPctH2 : Option ℚ
deriving DecidableEq

/-- Zip the binsize table with the two computed columns into output rows
(the columns all have the table's length whenever they are assigned). -/
def mkRows : List (ℕ × ℚ) → List (Option ℚ) → List (Option ℚ) → List PolylocRow
  | (b, s) :: ts, h :: hs, c :: cs => ⟨b, s, h, c⟩ :: mkRows ts hs cs
  | _, _, _ => []

/-- The core of `PolyLoc.compute_polyloc` (lines 173-193): from the
regression estimate row `est` (with `nAnnot` annotations and average sample
size `nbar`, both produced by the external `run_ldsc` call of line 176,
which is invoked with a non-negativity constraint `nn=True`) and the
persisted binsize table, compute per-bin `%H2` and its running sum.  An
`Except.error` models the `ValueError` raised on a length mismatch at
line 186, before the output file is written; an `.ok` value models the
`.polyloc` file written at line 192 — the source never checks the total
for zero before normalizing. -/
def compute_polyloc (est : List ℚ) (nAnnot : ℕ) (nbar : ℚ)
    (binsizeTable : List (ℕ × ℚ)) : Except String (List PolylocRow) :=
  (broadcastMul (tausOf est nAnnot nbar) (binsizeTable.map Prod.snd)).map
    (fun contrib =>
      let total := contrib.sum
      let h2 := contrib.map (fun c => optDiv c total)
      mkRows binsizeTable h2 (cumsum h2))

/-- The stage-combination checks of `check_args` (lines 23-27 and 34-35):
at least one stage flag, no partition+localize without ldscore, and no
ldscore+localize without partition.  The checks of lines 28-33 concern other
parameters (`--chr`, `--bfile-chr`), not the three stage flags. -/
def check_args_stages (computePartitions computeLdscores computePolyloc : Bool) :
    Except String Unit :=
  if computePartitions.toNat + computeLdscores.toNat + computePolyloc.toNat = 0 then
    .error "must specify at least one of --compute-partitions, --compute-ldscores, --compute-polyloc"
  else if computePartitions && computePolyloc && !computeLdscores then
    .error "cannot use both --compute-partitions and --compute_polyloc without also specifying --compute-ldscores"
  else if computeLdscores && computePolyloc && !computePartitions then
    .error "cannot use both --compute-ldscores and --compute_polyloc without also specifying --compute-partitions"
  else .ok ()

/-- Whether a computation raised. -/
def isFailure {α : Type} : Except String α → Bool
  | .error _ => true
  | .ok _ => false

/-- Whether a cell is the boolean `True`. -/
def isTrueCell (c : Cell) : Bool := decide (c = Cell.bool true)

/-- Whether a cell holds a boolean. -/
def isBoolCell (c : Cell) : Bool :=
  decide (c = Cell.bool true) || decide (c = Cell.bool false)

/-- One-hot property of a list of bin cells: boolean cells with exactly one
`True` among them. -/
def oneHotCells (l : List Cell) : Bool :=
  decide (l.countP isTrueCell = 1) && l.all isBoolCell

/-- Whether a row of the assembled bin matrix is a synthesized residual row:
its `k` pre-existing bin columns all `False` and the final residual column
`True`. -/
def residRow (k : ℕ) (cells : List Cell) : Bool :=
  decide (cells.drop SNP_COLUMNS.length =
    List.replicate k (Cell.bool false) ++ [Cell.bool true])

/-- Addition of possibly non-finite floats: a non-finite operand makes the
result non-finite. -/
def optAdd : Option ℚ → Option ℚ → Option ℚ
  | some a, some b => some (a + b)
  | _, _ => none

/-- Total of a column of possibly non-finite floats. -/
def optSum (l : List (Option ℚ)) : Option ℚ := l.foldr optAdd (some 0)

/-- Whether a column of floats is finite everywhere and non-decreasing. -/
def chainNondec : List (Option ℚ) → Bool
  | [] => true
  | [some _] => true
  | some a :: some b :: l => decide (a ≤ b) && chainNondec (some b :: l)
  | _ => false

/-- Column-name evolution of the assignment loop of lines 155-156: the
columns after assigning each name of `cs`, in order, to a frame whose
columns are `cols`. -/
def foldCols (cols : List String) (cs : List String) : List String :=
  cs.foldl setColsAfter cols

/-- Cell evolution of one row under the assignment loop of lines 155-156:
assign `False` for each column name of `cs` in order, tracking the current
column list. -/
def foldCells (cols : List String) (cells : List Cell) : List String → List Cell
  | [] => cells
  | c :: cs => foldCells (setColsAfter cols c) (setCell cols cells c (Cell.bool false)) cs

/-- The closed form of the bin matrix assembled by `polyloc_partitions` when
the universe is strictly larger than the posterior set: the reindexed
posterior rows with the residual column appended as `False`, followed by one
synthesized row per missing variant whose identity and pre-existing bin
cells are all `False` and whose residual cell is `True`. -/
def residualFrame (dfBins0 : DFrame) (binCols : List String) (uni : List BimRow) :
    DFrame :=
  ⟨SNP_COLUMNS ++ binCols ++ [residColName (binCols.length + 1)],
    dfBins0.rows.map (fun r => (rowKey dfBins0.cols r.2, r.2 ++ [Cell.bool false])) ++
      (uni.filter (fun r => !((posteriorKeys dfBins0).contains (bimKey r)))).map
        (fun r => (bimKey r,
          List.replicate (SNP_COLUMNS.length + binCols.length) (Cell.bool false) ++
            [Cell.bool true]))⟩

/-- Concrete five-variant genotype universe (the spec's scenario
U = {v1..v5}), used by the witnesses. -/
def uniA : List BimRow :=
  [⟨1, "rs1", 0, 100, "A", "C"⟩, ⟨1, "rs2", 0, 200, "A", "C"⟩,
   ⟨1, "rs3", 0, 300, "A", "C"⟩, ⟨1, "rs4", 0, 400, "A", "C"⟩,
   ⟨1, "rs5", 0, 500, "A", "C"⟩]

/-- One posterior bin-matrix row over two bins, as the external partitioner
returns it (identity cells, then the bin indicators); the index is arbitrary
before line 145 reassigns it. -/
def binsRowA (snp : String) (bp : Int) (b1 b2 : Bool) : String × List Cell :=
  ("", [.int 1, .str snp, .int bp, .str "A", .str "C", .bool b1, .bool b2])

/-- Posterior bin matrix of the spec's scenario: v1, v2, v3 labelled with
bins 1, 1, 2. -/
def binsA : DFrame :=
  ⟨SNP_COLUMNS ++ ["snpvar_bin1", "snpvar_bin2"],
   [binsRowA "rs1" 100 true false, binsRowA "rs2" 200 true false,
    binsRowA "rs3" 300 false true]⟩

/-- Posterior bin matrix referencing a variant `rs9` that is absent from
`uniA`. -/
def binsMissing : DFrame :=
  ⟨SNP_COLUMNS ++ ["snpvar_bin1", "snpvar_bin2"],
   [binsRowA "rs1" 100 true false, binsRowA "rs9" 900 false true]⟩

/-- Two-variant genotype universe. -/
def uniB : List BimRow :=
  [⟨1, "rs1", 0, 100, "A", "C"⟩, ⟨1, "rs2", 0, 200, "A", "C"⟩]

/-- Posterior bin matrix in which the VariantKey `rs1AC` appears twice. -/
def binsDup : DFrame :=
  ⟨SNP_COLUMNS ++ ["snpvar_bin1"],
   [("", [.int 1, .str "rs1", .int 100, .str "A", .str "C", .bool true]),
    ("", [.int 1, .str "rs1", .int 100, .str "A", .str "C", .bool true])]⟩

/-- The assembled five-row bin matrix of the spec's scenario after the
residual repair: three bins, v4 and v5 in the residual bin 3 with their
identity cells overwritten to `False`; used by the C8 witness. -/
def binsFull : DFrame :=
  ⟨SNP_COLUMNS ++ ["snpvar_bin1", "snpvar_bin2", "snpvar_bin3"],
   [("rs1AC", [.int 1, .str "rs1", .int 100, .str "A", .str "C",
      .bool true, .bool false, .bool false]),
    ("rs2AC", [.int 1, .str "rs2", .int 200, .str "A", .str "C",
      .bool true, .bool false, .bool false]),
    ("rs3AC", [.int 1, .str "rs3", .int 300, .str "A", .str "C",
      .bool false, .bool true, .bool false]),
    ("rs4AC", [.bool false, .bool false, .bool false, .bool false, .bool false,
      .bool false, .bool false, .bool true]),
    ("rs5AC", [.bool false, .bool false, .bool false, .bool false, .bool false,
      .bool false, .bool false, .bool true])]⟩

-- ### C9
/-- C9: stage-combination validation.  `check_args` rejects exactly three
combinations of the stage flags {partition, ldscore, localize}: no flag set,
partition and localize without ldscore, and ldscore and localize without
partition; no other combination of the three flags is rejected by these
stage-combination rules. -/
theorem claim9_stage_combinations :
    ∀ p l c : Bool, isFailure (check_args_stages p l c) =
      ((!p && !l && !c) || (p && c && !l) || (l && c && !p)) := by decide

-- ### helper: integrity condition
lemma bimRowKeys (uni : List BimRow) :
    (dfBimOf uni).rows.map Prod.fst = uniKeys uni := by
  simp [dfBimOf, uniKeys, List.map_map]

lemma integrityCond (dfBins0 : DFrame) (uni : List BimRow) :
    ((setVariantIndex dfBins0).rows.any
        (fun r => !(((dfBimOf uni).rows.map Prod.fst).contains r.1))) = true ↔
      ∃ k ∈ posteriorKeys dfBins0, k ∉ uniKeys uni := by
  rw [bimRowKeys]
  simp only [setVariantIndex, posteriorKeys, List.any_map, List.any_eq_true, List.mem_map,
    Function.comp, Bool.not_eq_true', List.contains, List.elem_eq_mem, decide_eq_false_iff_not]
  constructor
  · rintro ⟨⟨a, b⟩, hab, hk⟩
    exact ⟨_, ⟨⟨a, b⟩, hab, rfl⟩, hk⟩
  · rintro ⟨k, ⟨⟨a, b⟩, hab, rfl⟩, hk⟩
    exact ⟨⟨a, b⟩, hab, hk⟩

-- ### C3
/-- C3: integrity rejection.  Whenever the posterior-labelled set contains a
VariantKey absent from the genotype universe, `polyloc_partitions` fails with
the integrity error of lines 148-149 (the spec's `DataIntegrityError`, a
`ValueError` in the source) and, the raise preceding both writes, produces
neither the bin-assignment file nor the bin-size file. -/
theorem claim3_integrity_rejection (dfBins0 : DFrame) (uni : List BimRow)
    (h : ∃ k ∈ posteriorKeys dfBins0, k ∉ uniKeys uni) :
    polyloc_partitions dfBins0 uni =
      .error "Found variants in posterior file that are not found in the plink files" := by
  rw [polyloc_partitions, if_pos ((integrityCond dfBins0 uni).mpr h)]

theorem claim3_integrity_rejection_witness :
    (∃ k ∈ posteriorKeys binsMissing, k ∉ uniKeys uniA) ∧
      polyloc_partitions binsMissing uniA =
        .error "Found variants in posterior file that are not found in the plink files" :=
  ⟨by decide, claim3_integrity_rejection binsMissing uniA (by decide)⟩

-- ### C5
/-- C5 counterexample: the posterior set `binsDup` holds two records with
the same VariantKey `rs1AC`, yet `polyloc_partitions` completes without any
error — the claimed `DataIntegrityError` is never raised, so the claim is
false as stated. -/
theorem claim5_duplicates_not_rejected :
    isFailure (polyloc_partitions binsDup uniB) = false := by decide

/-- C5 amended: `polyloc_partitions` performs no duplicate-VariantKey check
at all.  For any input whose posterior keys all occur in the universe — with
duplicate keys allowed in the posterior set — the function returns
successfully, silently propagating the collision. -/
theorem claim5_amended_no_duplicate_check (dfBins0 : DFrame) (uni : List BimRow)
    (h : ∀ k ∈ posteriorKeys dfBins0, k ∈ uniKeys uni) :
    ∃ out, polyloc_partitions dfBins0 uni = .ok out := by
  rw [polyloc_partitions, if_neg]
  · exact ⟨_, rfl⟩
  · intro hc
    obtain ⟨k, hk, hk2⟩ := (integrityCond dfBins0 uni).mp hc
    exact hk2 (h k hk)

theorem claim5_amended_witness :
    (∀ k ∈ posteriorKeys binsDup, k ∈ uniKeys uniB) ∧
      ∃ out, polyloc_partitions binsDup uniB = .ok out :=
  ⟨by decide, claim5_amended_no_duplicate_check binsDup uniB (by decide)⟩

-- ### cumsum helper
lemma cumsumGo_replicate_none (acc : ℚ) (n : ℕ) :
    cumsumGo acc (List.replicate n none) = List.replicate n none := by
  induction n with
  | zero => rfl
  | succ n ih => simp [List.replicate_succ, cumsumGo, ih]

-- ### C4
/-- C4 counterexample: with all coefficients zero the total contribution is
zero, yet `compute_polyloc` succeeds and writes an output file (whose `%H2`
entries are the non-finite results of dividing by the zero total); the
claimed `DegenerateResultError` does not exist in the code. -/
theorem claim4_degenerate_writes_output :
    compute_polyloc [0, 0] 2 1 [(1, 2), (2, 3)] =
      .ok [⟨1, 2, none, none⟩, ⟨2, 3, none, none⟩] := by
  simp [compute_polyloc, broadcastMul, tausOf, optDiv, cumsum, cumsumGo, mkRows, Except.map]

/-- C4 amended: when the total contribution is zero the localization stage
does not fail; it divides by zero, producing a `.polyloc` output file whose
`%H2` and `SUM_%H2` columns are entirely non-finite (NaN/Inf, modelled as
`none`). -/
theorem claim4_amended_degenerate_nan (est : List ℚ) (nAnnot : ℕ) (nbar : ℚ)
    (t : List (ℕ × ℚ))
    (hlen : (tausOf est nAnnot nbar).length = t.length)
    (hzero : (List.zipWith (fun a b => a * b) (tausOf est nAnnot nbar) (t.map Prod.snd)).sum = 0) :
    compute_polyloc est nAnnot nbar t =
      .ok (mkRows t (List.replicate t.length none) (List.replicate t.length none)) := by
  have hb : broadcastMul (tausOf est nAnnot nbar) (t.map Prod.snd) =
      .ok (List.zipWith (fun a b => a * b) (tausOf est nAnnot nbar) (t.map Prod.snd)) := by
    unfold broadcastMul
    rw [if_pos (by rw [List.length_map]; exact hlen)]
  have hlen2 : (List.zipWith (fun a b => a * b) (tausOf est nAnnot nbar) (t.map Prod.snd)).length
      = t.length := by
    rw [List.length_zipWith, List.length_map, hlen, min_self]
  unfold compute_polyloc
  rw [hb]
  simp only [Except.map]
  have h2 : (List.zipWith (fun a b => a * b) (tausOf est nAnnot nbar) (t.map Prod.snd)).map
      (fun c => optDiv c (List.zipWith (fun a b => a * b) (tausOf est nAnnot nbar) (t.map Prod.snd)).sum)
      = List.replicate t.length none := by
    rw [hzero, ← hlen2]
    apply List.eq_replicate_iff.mpr
    refine ⟨by rw [List.length_map], ?_⟩
    intro b hb2
    obtain ⟨c, _, rfl⟩ := List.mem_map.mp hb2
    simp [optDiv]
  rw [h2]
  simp only [cumsum, cumsumGo_replicate_none]

theorem claim4_amended_witness :
    ((tausOf [0, 0] 2 1).length = [((1 : ℕ), (1 : ℚ)), (2, 4)].length ∧
      (List.zipWith (fun a b => a * b) (tausOf [0, 0] 2 1)
        ([((1 : ℕ), (1 : ℚ)), (2, 4)].map Prod.snd)).sum = 0) ∧
    compute_polyloc [0, 0] 2 1 [(1, 1), (2, 4)] =
      .ok (mkRows [(1, 1), (2, 4)] (List.replicate 2 none) (List.replicate 2 none)) :=
  ⟨⟨by decide, by simp [tausOf]⟩,
    claim4_amended_degenerate_nan [0, 0] 2 1 [(1, 1), (2, 4)] (by decide) (by simp [tausOf])⟩

-- ### C6
/-- C6 counterexample: with one regression coefficient and three persisted
bins the counts differ, yet `compute_polyloc` raises nothing — numpy
broadcasting silently stretches the length-one coefficient array — and an
output file is written; so the claim is false as stated. -/
theorem claim6_mismatch_broadcasts_silently :
    compute_polyloc [2] 1 1 [(1, 2), (2, 1), (3, 2)] =
      .ok [⟨1, 2, some (2/5), some (2/5)⟩, ⟨2, 1, some (1/5), some (3/5)⟩,
           ⟨3, 2, some (2/5), some 1⟩] := by
  norm_num [compute_polyloc, broadcastMul, tausOf, optDiv, cumsum, cumsumGo, mkRows, Except.map]

/-- C6 amended: a coefficient-count/bin-count mismatch makes the stage fail
only with the generic broadcasting `ValueError` raised by the multiplication
of line 186 (no dedicated `ShapeMismatchError` exists, and the division of
the coefficients by `Nbar` has already been performed), and only when the
coefficient vector does not have length one — a length-one vector broadcasts
without any error. -/
theorem claim6_amended_generic_error (est : List ℚ) (nAnnot : ℕ) (nbar : ℚ)
    (t : List (ℕ × ℚ))
    (hne : (tausOf est nAnnot nbar).length ≠ t.length)
    (h1 : (tausOf est nAnnot nbar).length ≠ 1) :
    compute_polyloc est nAnnot nbar t = .error "operands could not be broadcast together" := by
  have hb : broadcastMul (tausOf est nAnnot nbar) (t.map Prod.snd) =
      .error "operands could not be broadcast together" := by
    unfold broadcastMul
    rw [if_neg (by rw [List.length_map]; exact hne)]
    rcases htaus : tausOf est nAnnot nbar with _ | ⟨x, _ | ⟨y, l⟩⟩
    · rfl
    · exact absurd (by rw [htaus]; rfl) h1
    · rfl
  unfold compute_polyloc
  rw [hb]
  rfl

theorem claim6_amended_witness :
    ((tausOf [1, 2] 2 1).length ≠ [((1 : ℕ), (1 : ℚ)), (2, 2), (3, 3)].length ∧
      (tausOf [1, 2] 2 1).length ≠ 1) ∧
    compute_polyloc [1, 2] 2 1 [(1, 1), (2, 2), (3, 3)] =
      .error "operands could not be broadcast together" :=
  ⟨⟨by decide, by decide⟩,
    claim6_amended_generic_error [1, 2] 2 1 [(1, 1), (2, 2), (3, 3)] (by decide) (by decide)⟩

-- ### C7 helpers
lemma optSum_map_some (l : List ℚ) : optSum (l.map some) = some l.sum := by
  induction l with
  | nil => rfl
  | cons x l ih => simp only [List.map_cons, optSum, List.foldr] at ih ⊢; rw [ih, optAdd]; simp

lemma cumsumGo_length (l : List (Option ℚ)) : ∀ acc, (cumsumGo acc l).length = l.length := by
  induction l with
  | nil => intro acc; rfl
  | cons x l ih =>
    intro acc
    rcases x with _ | x <;> simp [cumsumGo, ih]

lemma chainNondec_cumsumGo : ∀ (l : List ℚ) (acc : ℚ), (∀ x ∈ l, 0 ≤ x) →
    chainNondec (cumsumGo acc (l.map some)) = true
  | [], _, _ => rfl
  | [_], _, _ => rfl
  | x :: y :: l, acc, h => by
    have ih := chainNondec_cumsumGo (y :: l) (acc + x)
      (fun z hz => h z (List.mem_cons_of_mem _ hz))
    simp only [List.map_cons, cumsumGo] at ih ⊢
    rw [chainNondec, ih, Bool.and_true, decide_eq_true_iff]
    exact le_add_of_nonneg_right (h y (by simp))

lemma getLast?_cumsumGo : ∀ (l : List ℚ) (acc : ℚ), l ≠ [] →
    (cumsumGo acc (l.map some)).getLast? = some (some (acc + l.sum))
  | [], _, h => absurd rfl h
  | [x], acc, _ => by simp [cumsumGo]
  | x :: y :: l, acc, _ => by
    have ih := getLast?_cumsumGo (y :: l) (acc + x) (by simp)
    simp only [List.map_cons, cumsumGo] at ih ⊢
    rw [List.getLast?_cons_cons, ih]
    simp only [List.sum_cons]
    ring_nf

lemma mkRows_maps (t : List (ℕ × ℚ)) : ∀ (h c : List (Option ℚ)),
    h.length = t.length → c.length = t.length →
    (mkRows t h c).map PolylocRow.pctH2 = h ∧
      (mkRows t h c).map PolylocRow.sumPctH2 = c := by
  induction t with
  | nil =>
    intro h c hh hc
    rw [List.length_nil, List.length_eq_zero] at hh hc
    subst hh; subst hc
    exact ⟨rfl, rfl⟩
  | cons p t ih =>
    rintro (_ | ⟨x, h⟩) (_ | ⟨y, c⟩) hh hc <;> simp only [List.length_nil,
      List.length_cons, Nat.succ_ne_zero, Nat.zero_eq] at hh hc <;> try omega
    obtain ⟨b, s⟩ := p
    have := ih h c (by omega) (by omega)
    simp [mkRows, this.1, this.2]

lemma zipWith_mul_nonneg : ∀ (xs ys : List ℚ), (∀ x ∈ xs, 0 ≤ x) → (∀ y ∈ ys, 0 ≤ y) →
    ∀ c ∈ List.zipWith (fun a b => a * b) xs ys, 0 ≤ c
  | [], _, _, _ => by simp
  | _ :: _, [], _, _ => by simp
  | x :: xs, y :: ys, hx, hy => by
    simp only [List.zipWith_cons_cons, List.mem_cons]
    rintro c (rfl | hc)
    · exact mul_nonneg (hx x (by simp)) (hy y (by simp))
    · exact zipWith_mul_nonneg xs ys (fun a ha => hx a (by simp [ha]))
        (fun b hb => hy b (by simp [hb])) c hc

lemma sum_map_div (l : List ℚ) (T : ℚ) : (l.map (fun x => x / T)).sum = l.sum / T := by
  induction l with
  | nil => simp
  | cons x l ih => simp [ih, add_div]

-- ### C7
/-- C7: normalization and monotone accumulation.  For any non-degenerate
input (total contribution nonzero) built from the non-negative coefficient
estimates that `run_ldsc(nn=True)` returns, a positive average sample size
and non-negative bin sizes, with matching lengths, the `%H2` column sums to
exactly 1, and the cumulative `SUM_%H2` column, taken in bin order, is
finite, non-decreasing and ends at exactly 1 (exact rational arithmetic
stands in for floating point within tolerance). -/
theorem claim7_normalization_monotone (est : List ℚ) (nAnnot : ℕ) (nbar : ℚ)
    (t : List (ℕ × ℚ))
    (hest : ∀ x ∈ est, 0 ≤ x) (hbar : 0 < nbar)
    (hsz : ∀ p ∈ t, 0 ≤ Prod.snd p)
    (hlen : (tausOf est nAnnot nbar).length = t.length)
    (htot : (List.zipWith (fun a b => a * b) (tausOf est nAnnot nbar) (t.map Prod.snd)).sum ≠ 0) :
    ∃ rows, compute_polyloc est nAnnot nbar t = .ok rows ∧
      optSum (rows.map PolylocRow.pctH2) = some 1 ∧
      chainNondec (rows.map PolylocRow.sumPctH2) = true ∧
      (rows.map PolylocRow.sumPctH2).getLast? = some (some 1) := by
  set taus := tausOf est nAnnot nbar with htaus
  set contrib := List.zipWith (fun a b => a * b) taus (t.map Prod.snd) with hcon
  have hcnn : ∀ c ∈ contrib, 0 ≤ c := by
    refine zipWith_mul_nonneg _ _ ?_ ?_
    · intro x hx
      rw [htaus, tausOf] at hx
      obtain ⟨e, he, rfl⟩ := List.mem_map.mp hx
      exact div_nonneg (hest e (List.mem_of_mem_take he)) hbar.le
    · intro y hy
      obtain ⟨p, hp, rfl⟩ := List.mem_map.mp hy
      exact hsz p hp
  have hTpos : 0 < contrib.sum :=
    lt_of_le_of_ne (List.sum_nonneg hcnn) (Ne.symm htot)
  have hb : broadcastMul taus (t.map Prod.snd) = .ok contrib := by
    unfold broadcastMul
    rw [if_pos (by rw [List.length_map]; exact hlen)]
  have hclen : contrib.length = t.length := by
    rw [hcon, List.length_zipWith, List.length_map, hlen, min_self]
  have h2eq : contrib.map (fun c => optDiv c contrib.sum) =
      (contrib.map (fun c => c / contrib.sum)).map some := by
    rw [List.map_map]
    refine List.map_congr_left ?_
    intro c _
    simp [optDiv, hTpos.ne', Function.comp]
  unfold compute_polyloc
  rw [hb]
  simp only [Except.map]
  refine ⟨_, rfl, ?_, ?_, ?_⟩
  all_goals
    rw [h2eq]
  · rw [(mkRows_maps t _ _ (by simp [hclen]) (by rw [cumsum, cumsumGo_length, List.length_map, List.length_map, hclen])).1]
    rw [optSum_map_some, sum_map_div, div_self htot]
  · rw [(mkRows_maps t _ _ (by simp [hclen]) (by rw [cumsum, cumsumGo_length, List.length_map, List.length_map, hclen])).2]
    rw [cumsum]
    exact chainNondec_cumsumGo _ 0 (fun x hx => by
      obtain ⟨c, hc, rfl⟩ := List.mem_map.mp hx
      exact div_nonneg (hcnn c hc) hTpos.le)
  · rw [(mkRows_maps t _ _ (by simp [hclen]) (by rw [cumsum, cumsumGo_length, List.length_map, List.length_map, hclen])).2]
    rw [cumsum, getLast?_cumsumGo _ 0 ?_, zero_add, sum_map_div, div_self htot]
    intro hnil
    rw [List.map_eq_nil_iff] at hnil
    rw [hnil] at htot
    exact htot rfl

theorem claim7_witness :
    ((∀ x ∈ [(1 : ℚ)/10, 3/10, 2/10], 0 ≤ x) ∧ (0 : ℚ) < 1 ∧
      (∀ p ∈ [((1 : ℕ), (2 : ℚ)), (2, 1), (3, 2)], 0 ≤ Prod.snd p) ∧
      (tausOf [(1 : ℚ)/10, 3/10, 2/10] 3 1).length =
        [((1 : ℕ), (2 : ℚ)), (2, 1), (3, 2)].length ∧
      (List.zipWith (fun a b => a * b) (tausOf [(1 : ℚ)/10, 3/10, 2/10] 3 1)
        ([((1 : ℕ), (2 : ℚ)), (2, 1), (3, 2)].map Prod.snd)).sum ≠ 0) ∧
    ∃ rows, compute_polyloc [(1 : ℚ)/10, 3/10, 2/10] 3 1 [(1, 2), (2, 1), (3, 2)] = .ok rows ∧
      optSum (rows.map PolylocRow.pctH2) = some 1 ∧
      chainNondec (rows.map PolylocRow.sumPctH2) = true ∧
      (rows.map PolylocRow.sumPctH2).getLast? = some (some 1) :=
  ⟨⟨by norm_num, by norm_num, by norm_num, by norm_num [tausOf], by norm_num [tausOf]⟩,
    claim7_normalization_monotone [(1 : ℚ)/10, 3/10, 2/10] 3 1 [(1, 2), (2, 1), (3, 2)]
      (by norm_num) (by norm_num) (by norm_num) (by norm_num [tausOf]) (by norm_num [tausOf])⟩

-- ### partition machinery
lemma snpSelect_bim (r : BimRow) :
    SNP_COLUMNS.map (getCellD bimCols (bimCells r)) =
      [.int r.chr, .str r.snp, .int r.bp, .str r.a1, .str r.a2] := rfl

lemma foldCells_snp (x1 x2 x3 x4 x5 : Cell) (cs : List String) :
    foldCells SNP_COLUMNS [x1, x2, x3, x4, x5] (SNP_COLUMNS ++ cs) =
      foldCells SNP_COLUMNS (List.replicate 5 (Cell.bool false)) cs := rfl

lemma setColsFalse_eq (cs : List String) : ∀ (cols : List String) (rows : List (String × List Cell)),
    setColsFalse ⟨cols, rows⟩ cs =
      ⟨foldCols cols cs, rows.map (fun r => (r.1, foldCells cols r.2 cs))⟩ := by
  induction cs with
  | nil =>
    intro cols rows
    simp [setColsFalse, foldCols, foldCells]
  | cons c cs ih =>
    intro cols rows
    show setColsFalse (setColAll ⟨cols, rows⟩ c (Cell.bool false)) cs = _
    rw [setColAll]
    dsimp only
    rw [ih]
    simp only [List.map_map, foldCols, List.foldl_cons, foldCells]
    rfl

lemma foldCols_append (cols cs1 cs2 : List String) :
    foldCols cols (cs1 ++ cs2) = foldCols (foldCols cols cs1) cs2 :=
  List.foldl_append _ _ _ _

lemma foldCols_mem : ∀ (cs cols : List String), (∀ c ∈ cs, c ∈ cols) → foldCols cols cs = cols
  | [], _, _ => rfl
  | c :: cs, cols, h => by
    have h1 : setColsAfter cols c = cols := by rw [setColsAfter, if_pos (h c (by simp))]
    show foldCols (setColsAfter cols c) cs = cols
    rw [h1]
    exact foldCols_mem cs cols (fun d hd => h d (by simp [hd]))

lemma foldCols_fresh : ∀ (cs cols : List String), (∀ c ∈ cs, c ∉ cols) → cs.Nodup →
    foldCols cols cs = cols ++ cs
  | [], cols, _, _ => by simp [foldCols]
  | c :: cs, cols, h, hnd => by
    have h1 : setColsAfter cols c = cols ++ [c] := by
      rw [setColsAfter, if_neg (h c (by simp))]
    show foldCols (setColsAfter cols c) cs = _
    rw [h1, foldCols_fresh cs (cols ++ [c]) ?_ (List.nodup_cons.mp hnd).2]
    · simp
    · intro d hd
      simp only [List.mem_append, List.mem_singleton]
      rintro (hc | rfl)
      · exact h d (List.mem_cons_of_mem _ hd) hc
      · exact (List.nodup_cons.mp hnd).1 hd

lemma foldCells_fresh : ∀ (cs cols : List String) (cells : List Cell),
    (∀ c ∈ cs, c ∉ cols) → cs.Nodup →
    foldCells cols cells cs = cells ++ List.replicate cs.length (Cell.bool false)
  | [], _, cells, _, _ => by simp [foldCells]
  | c :: cs, cols, cells, h, hnd => by
    have h1 : setColsAfter cols c = cols ++ [c] := by
      rw [setColsAfter, if_neg (h c (by simp))]
    have h2 : setCell cols cells c (Cell.bool false) = cells ++ [Cell.bool false] := by
      rw [setCell, if_neg (h c (by simp))]
    show foldCells (setColsAfter cols c) (setCell cols cells c (Cell.bool false)) cs = _
    rw [h1, h2, foldCells_fresh cs (cols ++ [c]) (cells ++ [Cell.bool false]) ?_
      (List.nodup_cons.mp hnd).2]
    · rw [List.length_cons, List.append_assoc]
      congr 1
    · intro d hd
      simp only [List.mem_append, List.mem_singleton]
      rintro (hc | rfl)
      · exact h d (List.mem_cons_of_mem _ hd) hc
      · exact (List.nodup_cons.mp hnd).1 hd

lemma setColAll_fresh (df : DFrame) (c : String) (v : Cell) (h : c ∉ df.cols) :
    setColAll df c v = ⟨df.cols ++ [c], df.rows.map (fun r => (r.1, r.2 ++ [v]))⟩ := by
  rw [setColAll, setColsAfter, if_neg h]
  congr 1
  refine List.map_congr_left ?_
  intro r _
  rw [setCell, if_neg h]

lemma posteriorKeys_setVariantIndex (dfBins0 : DFrame) :
    (setVariantIndex dfBins0).rows.map Prod.fst = posteriorKeys dfBins0 := by
  simp [setVariantIndex, posteriorKeys, List.map_map]

lemma residualAugment_eq (dfBins0 : DFrame) (binCols : List String) (uni : List BimRow)
    (hcols : dfBins0.cols = SNP_COLUMNS ++ binCols)
    (hnd : binCols.Nodup)
    (hdisj : ∀ c ∈ binCols, c ∉ SNP_COLUMNS)
    (hfresh : residColName (binCols.length + 1) ∉ SNP_COLUMNS ++ binCols) :
    residualAugment (setVariantIndex dfBins0) (dfBimOf uni) =
      residualFrame dfBins0 binCols uni := by
  have hvcols : (setVariantIndex dfBins0).cols = SNP_COLUMNS ++ binCols := hcols
  have hnew : (dfBimOf uni).rows.filter
      (fun r => !(((setVariantIndex dfBins0).rows.map Prod.fst).contains r.1)) =
      (uni.filter (fun r => !((posteriorKeys dfBins0).contains (bimKey r)))).map
        (fun r => (bimKey r, bimCells r)) := by
    rw [posteriorKeys_setVariantIndex, dfBimOf]
    exact List.filter_map _ _
  have hsel : ((uni.filter (fun r => !((posteriorKeys dfBins0).contains (bimKey r)))).map
        (fun r => (bimKey r, bimCells r))).map
        (fun r => (r.1, SNP_COLUMNS.map (getCellD bimCols r.2))) =
      (uni.filter (fun r => !((posteriorKeys dfBins0).contains (bimKey r)))).map
        (fun r => (bimKey r,
          [Cell.int r.chr, Cell.str r.snp, Cell.int r.bp, Cell.str r.a1, Cell.str r.a2])) := by
    rw [List.map_map]
    refine List.map_congr_left ?_
    intro r _
    simp only [Function.comp]
    exact congrArg (Prod.mk (bimKey r)) (snpSelect_bim r)
  have hfold : ∀ (rows : List (String × List Cell)),
      setColsFalse ⟨SNP_COLUMNS, rows⟩ (SNP_COLUMNS ++ binCols) =
      ⟨SNP_COLUMNS ++ binCols,
        rows.map (fun r => (r.1, foldCells SNP_COLUMNS r.2 (SNP_COLUMNS ++ binCols)))⟩ := by
    intro rows
    rw [setColsFalse_eq, foldCols_append, foldCols_mem SNP_COLUMNS SNP_COLUMNS (fun c hc => hc),
      foldCols_fresh binCols SNP_COLUMNS hdisj hnd]
  have hcells : ∀ r : BimRow,
      foldCells SNP_COLUMNS
        [Cell.int r.chr, Cell.str r.snp, Cell.int r.bp, Cell.str r.a1, Cell.str r.a2]
        (SNP_COLUMNS ++ binCols) =
      List.replicate (SNP_COLUMNS.length + binCols.length) (Cell.bool false) := by
    intro r
    rw [foldCells_snp, foldCells_fresh binCols SNP_COLUMNS _ hdisj hnd,
      ← List.replicate_add]
    rfl
  have hK : (SNP_COLUMNS ++ binCols).length - SNP_COLUMNS.length + 1 = binCols.length + 1 := by
    rw [List.length_append]
    omega
  have hrows2 : List.map (fun r => (r.1, foldCells SNP_COLUMNS r.2 (SNP_COLUMNS ++ binCols)))
      (List.map (fun r =>
          (bimKey r, [Cell.int r.chr, Cell.str r.snp, Cell.int r.bp, Cell.str r.a1, Cell.str r.a2]))
        (List.filter (fun r => !((posteriorKeys dfBins0).contains (bimKey r))) uni)) =
      List.map (fun r =>
          (bimKey r, List.replicate (SNP_COLUMNS.length + binCols.length) (Cell.bool false)))
        (List.filter (fun r => !((posteriorKeys dfBins0).contains (bimKey r))) uni) := by
    rw [List.map_map]
    refine List.map_congr_left ?_
    intro r _
    exact congrArg (Prod.mk (bimKey r)) (hcells r)
  simp only [residualAugment]
  rw [hnew, hsel, hvcols, hfold, hrows2]
  dsimp only
  rw [hK]
  rw [setColAll_fresh _ _ _ (show _ ∉ (setVariantIndex dfBins0).cols by rw [hvcols]; exact hfresh),
      setColAll_fresh _ _ _ (show _ ∉ SNP_COLUMNS ++ binCols from hfresh)]
  dsimp only
  rw [hvcols]
  simp only [residualFrame, setVariantIndex, List.map_map, List.append_assoc]
  rfl

theorem partitions_residual_form (dfBins0 : DFrame) (binCols : List String) (uni : List BimRow)
    (hcols : dfBins0.cols = SNP_COLUMNS ++ binCols)
    (hnd : binCols.Nodup)
    (hdisj : ∀ c ∈ binCols, c ∉ SNP_COLUMNS)
    (hfresh : residColName (binCols.length + 1) ∉ SNP_COLUMNS ++ binCols)
    (hsub : ∀ k ∈ posteriorKeys dfBins0, k ∈ uniKeys uni)
    (hgt : dfBins0.rows.length < uni.length) :
    polyloc_partitions dfBins0 uni =
      .ok (residualFrame dfBins0 binCols uni,
        binsizeOf (residualFrame dfBins0 binCols uni)) := by
  have hcond : ¬ ((setVariantIndex dfBins0).rows.any
      (fun r => !(((dfBimOf uni).rows.map Prod.fst).contains r.1)) = true) := by
    intro hc
    obtain ⟨k, hk1, hk2⟩ := (integrityCond dfBins0 uni).mp hc
    exact hk2 (hsub k hk1)
  have hlen : (dfBimOf uni).rows.length > (setVariantIndex dfBins0).rows.length := by
    simpa [dfBimOf, setVariantIndex] using hgt
  simp only [polyloc_partitions]
  rw [if_neg hcond, if_pos hlen,
    residualAugment_eq dfBins0 binCols uni hcols hnd hdisj hfresh]

theorem partitions_noresid_form (dfBins0 : DFrame) (uni : List BimRow)
    (hsub : ∀ k ∈ posteriorKeys dfBins0, k ∈ uniKeys uni)
    (hle : ¬ dfBins0.rows.length < uni.length) :
    polyloc_partitions dfBins0 uni =
      .ok (setVariantIndex dfBins0, binsizeOf (setVariantIndex dfBins0)) := by
  have hcond : ¬ ((setVariantIndex dfBins0).rows.any
      (fun r => !(((dfBimOf uni).rows.map Prod.fst).contains r.1)) = true) := by
    intro hc
    obtain ⟨k, hk1, hk2⟩ := (integrityCond dfBins0 uni).mp hc
    exact hk2 (hsub k hk1)
  have hlen : ¬ ((dfBimOf uni).rows.length > (setVariantIndex dfBins0).rows.length) := by
    simpa [dfBimOf, setVariantIndex] using hle
  simp only [polyloc_partitions]
  rw [if_neg hcond, if_neg hlen]

lemma oneHot_append_false (l : List Cell) :
    oneHotCells (l ++ [Cell.bool false]) = oneHotCells l := by
  simp [oneHotCells, List.countP_append, isBoolCell, List.countP_cons, isTrueCell]

lemma oneHot_replicate_false_true (k : ℕ) :
    oneHotCells (List.replicate k (Cell.bool false) ++ [Cell.bool true]) = true := by
  simp [oneHotCells, List.countP_append, List.countP_replicate, isTrueCell, isBoolCell,
    List.countP_cons, List.all_eq_true]

lemma posteriorKeys_length (dfBins0 : DFrame) :
    (posteriorKeys dfBins0).length = dfBins0.rows.length := by
  simp [posteriorKeys]

lemma uniKeys_length (uni : List BimRow) : (uniKeys uni).length = uni.length := by
  simp [uniKeys]

lemma length_lt_of_missing (P U : List String) (hnP : P.Nodup) (hnU : U.Nodup)
    (hsub : ∀ k ∈ P, k ∈ U) (k : String) (hkU : k ∈ U) (hkP : k ∉ P) :
    P.length < U.length := by
  have hPU : P.toFinset ⊆ U.toFinset := by
    intro x hx
    rw [List.mem_toFinset] at hx ⊢
    exact hsub x hx
  have hss : P.toFinset ⊂ U.toFinset :=
    (Finset.ssubset_iff_of_subset hPU).mpr ⟨k, by simpa using hkU, by simpa using hkP⟩
  calc P.length = P.toFinset.card := (List.toFinset_card_of_nodup hnP).symm
    _ < U.toFinset.card := Finset.card_lt_card hss
    _ = U.length := List.toFinset_card_of_nodup hnU

lemma toFinset_eq_of_subset_of_le (P U : List String) (hnP : P.Nodup) (hnU : U.Nodup)
    (hsub : ∀ k ∈ P, k ∈ U) (hlen : U.length ≤ P.length) :
    P.toFinset = U.toFinset := by
  have hPU : P.toFinset ⊆ U.toFinset := by
    intro x hx
    rw [List.mem_toFinset] at hx ⊢
    exact hsub x hx
  refine Finset.eq_of_subset_of_card_le hPU ?_
  rw [List.toFinset_card_of_nodup hnP, List.toFinset_card_of_nodup hnU]
  exact hlen

/-- C1: completeness of the bin partition.  For any genotype universe and
any posterior bin matrix of the shape the external partitioner produces
(identity columns then bin columns, one-hot rows, duplicate-free VariantKeys
on both sides) whose VariantKeys are all contained in the universe's keys,
`polyloc_partitions` succeeds, every row of the produced bin matrix has
exactly one `true` bin cell, and the set of VariantKeys of its rows equals
the set of the universe's keys exactly. -/
theorem claim1_partition_completeness (dfBins0 : DFrame) (binCols : List String)
    (uni : List BimRow)
    (hcols : dfBins0.cols = SNP_COLUMNS ++ binCols)
    (halign : ∀ r ∈ dfBins0.rows, r.2.length = SNP_COLUMNS.length + binCols.length)
    (hnd : binCols.Nodup)
    (hdisj : ∀ c ∈ binCols, c ∉ SNP_COLUMNS)
    (hfresh : residColName (binCols.length + 1) ∉ SNP_COLUMNS ++ binCols)
    (honehot : ∀ r ∈ dfBins0.rows, oneHotCells (r.2.drop SNP_COLUMNS.length) = true)
    (hsub : ∀ k ∈ posteriorKeys dfBins0, k ∈ uniKeys uni)
    (hnP : (posteriorKeys dfBins0).Nodup)
    (hnU : (uniKeys uni).Nodup) :
    ∃ out, polyloc_partitions dfBins0 uni = .ok out ∧
      out.1.rows.all (fun r => oneHotCells (r.2.drop SNP_COLUMNS.length)) = true ∧
      (out.1.rows.map Prod.fst).toFinset = (uniKeys uni).toFinset := by
  by_cases hgt : dfBins0.rows.length < uni.length
  · refine ⟨_, partitions_residual_form dfBins0 binCols uni hcols hnd hdisj hfresh hsub hgt,
      ?_, ?_⟩
    · rw [residualFrame]
      dsimp only
      rw [List.all_append, Bool.and_eq_true]
      refine ⟨?_, ?_⟩
      · rw [List.all_eq_true]
        intro r hr
        obtain ⟨r0, hr0, rfl⟩ := List.mem_map.mp hr
        dsimp only
        rw [List.drop_append_of_le_length (by rw [halign r0 hr0]; simp),
          oneHot_append_false]
        exact honehot r0 hr0
      · rw [List.all_eq_true]
        intro r hr
        obtain ⟨r0, hr0, rfl⟩ := List.mem_map.mp hr
        dsimp only
        rw [List.drop_append_of_le_length (by simp),
          List.drop_replicate]
        have h5 : SNP_COLUMNS.length + binCols.length - SNP_COLUMNS.length = binCols.length := by
          omega
        rw [h5, oneHot_replicate_false_true]
    · rw [residualFrame]
      dsimp only
      ext k
      simp only [List.map_append, List.map_map, List.toFinset_append, Finset.mem_union,
        List.mem_toFinset, List.mem_map, Function.comp]
      constructor
      · rintro (hP | ⟨r, hr, rfl⟩)
        · obtain ⟨⟨a, b⟩, hab, rfl⟩ := hP
          exact hsub _ (by simp [posteriorKeys]; exact ⟨a, b, hab, rfl⟩)
        · obtain ⟨hrU, _⟩ := List.mem_filter.mp hr
          exact List.mem_map_of_mem bimKey hrU
      · intro hU
        by_cases hP : k ∈ posteriorKeys dfBins0
        · left
          obtain ⟨⟨a, b⟩, hab, rfl⟩ := List.mem_map.mp hP
          exact ⟨(a, b), hab, rfl⟩
        · right
          obtain ⟨r, hrU, rfl⟩ := List.mem_map.mp hU
          refine ⟨r, List.mem_filter.mpr ⟨hrU, ?_⟩, rfl⟩
          simp only [Bool.not_eq_true', List.contains, List.elem_eq_mem, decide_eq_false_iff_not]
          exact hP
  · refine ⟨_, partitions_noresid_form dfBins0 uni hsub hgt, ?_, ?_⟩
    · rw [setVariantIndex]
      dsimp only
      rw [List.all_eq_true]
      intro r hr
      obtain ⟨r0, hr0, rfl⟩ := List.mem_map.mp hr
      exact honehot r0 hr0
    · rw [posteriorKeys_setVariantIndex]
      refine toFinset_eq_of_subset_of_le _ _ hnP hnU hsub ?_
      rw [posteriorKeys_length, uniKeys_length]
      omega

theorem claim1_witness :
    (binsA.cols = SNP_COLUMNS ++ ["snpvar_bin1", "snpvar_bin2"] ∧
      (∀ r ∈ binsA.rows, r.2.length = SNP_COLUMNS.length + ["snpvar_bin1", "snpvar_bin2"].length) ∧
      (["snpvar_bin1", "snpvar_bin2"] : List String).Nodup ∧
      (∀ c ∈ ["snpvar_bin1", "snpvar_bin2"], c ∉ SNP_COLUMNS) ∧
      residColName (["snpvar_bin1", "snpvar_bin2"].length + 1) ∉
        SNP_COLUMNS ++ ["snpvar_bin1", "snpvar_bin2"] ∧
      (∀ r ∈ binsA.rows, oneHotCells (r.2.drop SNP_COLUMNS.length) = true) ∧
      (∀ k ∈ posteriorKeys binsA, k ∈ uniKeys uniA) ∧
      (posteriorKeys binsA).Nodup ∧ (uniKeys uniA).Nodup) ∧
    ∃ out, polyloc_partitions binsA uniA = .ok out ∧
      out.1.rows.all (fun r => oneHotCells (r.2.drop SNP_COLUMNS.length)) = true ∧
      (out.1.rows.map Prod.fst).toFinset = (uniKeys uniA).toFinset :=
  ⟨⟨by decide, by decide, by decide, by decide, by decide, by decide, by decide, by decide,
    by decide⟩,
    claim1_partition_completeness binsA ["snpvar_bin1", "snpvar_bin2"] uniA (by decide)
      (by decide) (by decide) (by decide) (by decide) (by decide) (by decide) (by decide)
      (by decide)⟩

lemma residRow_old (K : ℕ) (cells : List Cell)
    (hlen : cells.length = SNP_COLUMNS.length + K) :
    residRow K (cells ++ [Cell.bool false]) = false := by
  rw [residRow, decide_eq_false_iff_not]
  intro heq
  rw [List.drop_append_of_le_length (by omega)] at heq
  have hlast := congrArg List.getLast? heq
  rw [List.getLast?_concat, List.getLast?_concat] at hlast
  exact Cell.noConfusion (Option.some.inj hlast) (fun h => Bool.noConfusion h)

lemma residRow_new (K : ℕ) :
    residRow K (List.replicate (SNP_COLUMNS.length + K) (Cell.bool false) ++
      [Cell.bool true]) = true := by
  rw [residRow, decide_eq_true_iff]
  rw [List.drop_append_of_le_length (by simp), List.drop_replicate]
  have h5 : SNP_COLUMNS.length + K - SNP_COLUMNS.length = K := by
    have h : SNP_COLUMNS.length = 5 := rfl
    omega
  rw [h5]

/-- C10: the initialization loop of lines 155-156 iterates over every
column of the existing bin matrix, including the `SNP_COLUMNS` identity
columns, which already exist in the synthesized frame and are therefore
overwritten with the boolean `False`.  Consequently each synthesized row of
the assembled matrix is `(bimKey r, all-False cells ++ [True])`: the
variant's identity survives only in the DataFrame index (the first
component), not in the identity columns. -/
theorem claim10_identity_cells_overwritten (dfBins0 : DFrame) (binCols : List String)
    (uni : List BimRow)
    (hcols : dfBins0.cols = SNP_COLUMNS ++ binCols)
    (hnd : binCols.Nodup)
    (hdisj : ∀ c ∈ binCols, c ∉ SNP_COLUMNS)
    (hfresh : residColName (binCols.length + 1) ∉ SNP_COLUMNS ++ binCols)
    (hsub : ∀ k ∈ posteriorKeys dfBins0, k ∈ uniKeys uni)
    (hnP : (posteriorKeys dfBins0).Nodup)
    (hnU : (uniKeys uni).Nodup)
    (hne : ∃ r ∈ uni, bimKey r ∉ posteriorKeys dfBins0) :
    ∃ out, polyloc_partitions dfBins0 uni = .ok out ∧
      out.1.rows.drop dfBins0.rows.length =
        (uni.filter (fun r => !((posteriorKeys dfBins0).contains (bimKey r)))).map
          (fun r => (bimKey r,
            List.replicate (SNP_COLUMNS.length + binCols.length) (Cell.bool false) ++
              [Cell.bool true])) := by
  have hgt : dfBins0.rows.length < uni.length := by
    obtain ⟨r, hr, hrP⟩ := hne
    have h := length_lt_of_missing (posteriorKeys dfBins0) (uniKeys uni) hnP hnU hsub
      (bimKey r) (List.mem_map_of_mem _ hr) hrP
    rwa [posteriorKeys_length, uniKeys_length] at h
  refine ⟨_, partitions_residual_form dfBins0 binCols uni hcols hnd hdisj hfresh hsub hgt, ?_⟩
  rw [residualFrame]
  dsimp only
  rw [List.drop_left' (by rw [List.length_map])]

theorem claim10_witness :
    (binsA.cols = SNP_COLUMNS ++ ["snpvar_bin1", "snpvar_bin2"] ∧
      (["snpvar_bin1", "snpvar_bin2"] : List String).Nodup ∧
      (∀ c ∈ ["snpvar_bin1", "snpvar_bin2"], c ∉ SNP_COLUMNS) ∧
      residColName (["snpvar_bin1", "snpvar_bin2"].length + 1) ∉
        SNP_COLUMNS ++ ["snpvar_bin1", "snpvar_bin2"] ∧
      (∀ k ∈ posteriorKeys binsA, k ∈ uniKeys uniA) ∧
      (posteriorKeys binsA).Nodup ∧ (uniKeys uniA).Nodup ∧
      (∃ r ∈ uniA, bimKey r ∉ posteriorKeys binsA)) ∧
    ∃ out, polyloc_partitions binsA uniA = .ok out ∧
      out.1.rows.drop binsA.rows.length =
        (uniA.filter (fun r => !((posteriorKeys binsA).contains (bimKey r)))).map
          (fun r => (bimKey r,
            List.replicate (SNP_COLUMNS.length + ["snpvar_bin1", "snpvar_bin2"].length)
              (Cell.bool false) ++ [Cell.bool true])) :=
  ⟨⟨by decide, by decide, by decide, by decide, by decide, by decide, by decide, by decide⟩,
    claim10_identity_cells_overwritten binsA ["snpvar_bin1", "snpvar_bin2"] uniA (by decide)
      (by decide) (by decide) (by decide) (by decide) (by decide) (by decide) (by decide)⟩

/-- C2: residual-bin construction.  Under the same well-formedness
hypotheses as C1: (a) when some universe variant is missing from the
posterior set, `polyloc_partitions` appends the residual column
`snpvar_bin(K+1)` as the last column, adds exactly one row per missing
variant, the rows whose pre-existing bin cells are all `False` and residual
cell `True` are exactly those synthesized rows, and every previously
existing row gets the residual column with value `False`; (b) when the
posterior and universe key sets are equal, no residual column is created. -/
theorem claim2_residual_bin_construction (dfBins0 : DFrame) (binCols : List String)
    (uni : List BimRow)
    (hcols : dfBins0.cols = SNP_COLUMNS ++ binCols)
    (halign : ∀ r ∈ dfBins0.rows, r.2.length = SNP_COLUMNS.length + binCols.length)
    (hnd : binCols.Nodup)
    (hdisj : ∀ c ∈ binCols, c ∉ SNP_COLUMNS)
    (hfresh : residColName (binCols.length + 1) ∉ SNP_COLUMNS ++ binCols)
    (hsub : ∀ k ∈ posteriorKeys dfBins0, k ∈ uniKeys uni)
    (hnP : (posteriorKeys dfBins0).Nodup)
    (hnU : (uniKeys uni).Nodup) :
    ((∃ r ∈ uni, bimKey r ∉ posteriorKeys dfBins0) →
      ∃ out, polyloc_partitions dfBins0 uni = .ok out ∧
        out.1.cols = SNP_COLUMNS ++ binCols ++ [residColName (binCols.length + 1)] ∧
        out.1.rows.length = dfBins0.rows.length +
          (uni.filter (fun r => !((posteriorKeys dfBins0).contains (bimKey r)))).length ∧
        (out.1.rows.filter (fun r => residRow binCols.length r.2)).length =
          (uni.filter (fun r => !((posteriorKeys dfBins0).contains (bimKey r)))).length ∧
        (out.1.rows.take dfBins0.rows.length).map Prod.snd =
          dfBins0.rows.map (fun r => r.2 ++ [Cell.bool false])) ∧
    ((posteriorKeys dfBins0).toFinset = (uniKeys uni).toFinset →
      ∃ out, polyloc_partitions dfBins0 uni = .ok out ∧
        out.1.cols = SNP_COLUMNS ++ binCols) := by
  constructor
  · intro hne
    have hgt : dfBins0.rows.length < uni.length := by
      obtain ⟨r, hr, hrP⟩ := hne
      have h := length_lt_of_missing (posteriorKeys dfBins0) (uniKeys uni) hnP hnU hsub
        (bimKey r) (List.mem_map_of_mem _ hr) hrP
      rwa [posteriorKeys_length, uniKeys_length] at h
    refine ⟨_, partitions_residual_form dfBins0 binCols uni hcols hnd hdisj hfresh hsub hgt,
      rfl, ?_, ?_, ?_⟩
    · rw [residualFrame]
      dsimp only
      rw [List.length_append, List.length_map, List.length_map]
    · rw [residualFrame]
      dsimp only
      rw [List.filter_append]
      have hold : (dfBins0.rows.map
          (fun r => (rowKey dfBins0.cols r.2, r.2 ++ [Cell.bool false]))).filter
          (fun r => residRow binCols.length r.2) = [] := by
        rw [List.filter_eq_nil_iff]
        intro r hr
        obtain ⟨r0, hr0, rfl⟩ := List.mem_map.mp hr
        dsimp only
        rw [residRow_old binCols.length r0.2 (halign r0 hr0)]
        exact Bool.false_ne_true
      have hnewf : ((uni.filter
          (fun r => !((posteriorKeys dfBins0).contains (bimKey r)))).map
          (fun r => (bimKey r,
            List.replicate (SNP_COLUMNS.length + binCols.length) (Cell.bool false) ++
              [Cell.bool true]))).filter (fun r => residRow binCols.length r.2) =
          (uni.filter (fun r => !((posteriorKeys dfBins0).contains (bimKey r)))).map
          (fun r => (bimKey r,
            List.replicate (SNP_COLUMNS.length + binCols.length) (Cell.bool false) ++
              [Cell.bool true])) := by
        rw [List.filter_eq_self]
        intro r hr
        obtain ⟨r0, _, rfl⟩ := List.mem_map.mp hr
        exact residRow_new binCols.length
      rw [hold, hnewf, List.nil_append, List.length_map]
    · rw [residualFrame]
      dsimp only
      rw [List.take_left' (by rw [List.length_map]), List.map_map]
      rfl
  · intro hkeq
    have hlen : uni.length ≤ dfBins0.rows.length := by
      have h1 : (posteriorKeys dfBins0).toFinset.card = (uniKeys uni).toFinset.card := by
        rw [hkeq]
      rw [List.toFinset_card_of_nodup hnP, List.toFinset_card_of_nodup hnU,
        posteriorKeys_length, uniKeys_length] at h1
      omega
    refine ⟨_, partitions_noresid_form dfBins0 uni hsub (by omega), ?_⟩
    exact hcols

theorem claim2_witness :
    (binsA.cols = SNP_COLUMNS ++ ["snpvar_bin1", "snpvar_bin2"] ∧
      (∀ r ∈ binsA.rows, r.2.length = SNP_COLUMNS.length + ["snpvar_bin1", "snpvar_bin2"].length) ∧
      (["snpvar_bin1", "snpvar_bin2"] : List String).Nodup ∧
      (∀ c ∈ ["snpvar_bin1", "snpvar_bin2"], c ∉ SNP_COLUMNS) ∧
      residColName (["snpvar_bin1", "snpvar_bin2"].length + 1) ∉
        SNP_COLUMNS ++ ["snpvar_bin1", "snpvar_bin2"] ∧
      (∀ k ∈ posteriorKeys binsA, k ∈ uniKeys uniA) ∧
      (posteriorKeys binsA).Nodup ∧ (uniKeys uniA).Nodup) ∧
    (((∃ r ∈ uniA, bimKey r ∉ posteriorKeys binsA) →
      ∃ out, polyloc_partitions binsA uniA = .ok out ∧
        out.1.cols = SNP_COLUMNS ++ ["snpvar_bin1", "snpvar_bin2"] ++
          [residColName (["snpvar_bin1", "snpvar_bin2"].length + 1)] ∧
        out.1.rows.length = binsA.rows.length +
          (uniA.filter (fun r => !((posteriorKeys binsA).contains (bimKey r)))).length ∧
        (out.1.rows.filter (fun r => residRow ["snpvar_bin1", "snpvar_bin2"].length r.2)).length =
          (uniA.filter (fun r => !((posteriorKeys binsA).contains (bimKey r)))).length ∧
        (out.1.rows.take binsA.rows.length).map Prod.snd =
          binsA.rows.map (fun r => r.2 ++ [Cell.bool false])) ∧
    ((posteriorKeys binsA).toFinset = (uniKeys uniA).toFinset →
      ∃ out, polyloc_partitions binsA uniA = .ok out ∧
        out.1.cols = SNP_COLUMNS ++ ["snpvar_bin1", "snpvar_bin2"])) :=
  ⟨⟨by decide, by decide, by decide, by decide, by decide, by decide, by decide, by decide⟩,
    claim2_residual_bin_construction binsA ["snpvar_bin1", "snpvar_bin2"] uniA (by decide)
      (by decide) (by decide) (by decide) (by decide) (by decide) (by decide) (by decide)⟩

-- ### C8 machinery
lemma getCellD_cons_ne (a : String) (x : Cell) (cols : List String) (cells : List Cell)
    (c : String) (h : c ≠ a) :
    getCellD (a :: cols) (x :: cells) c = getCellD cols cells c := by
  rw [getCellD, getCellD, List.indexOf_cons_ne _ (Ne.symm h)]
  rfl

lemma getCellD_cons_self (a : String) (x : Cell) (cols : List String) (cells : List Cell) :
    getCellD (a :: cols) (x :: cells) a = x := by
  rw [getCellD, List.indexOf_cons_self, List.getD_cons_zero]

lemma map_getCellD_self : ∀ (B : List String) (cellsB : List Cell), B.Nodup →
    cellsB.length = B.length → B.map (getCellD B cellsB) = cellsB
  | [], [], _, _ => rfl
  | [], _ :: _, _, h => by simp at h
  | _ :: _, [], _, h => by simp at h
  | b :: B, x :: cells, hnd, hlen => by
    rw [List.map_cons, getCellD_cons_self]
    congr 1
    rw [List.map_congr_left (fun c hc =>
      getCellD_cons_ne b x B cells c (fun he => (List.nodup_cons.mp hnd).1 (he ▸ hc)))]
    exact map_getCellD_self B cells (List.nodup_cons.mp hnd).2 (by simpa using hlen)

lemma map_getCellD_drop : ∀ (A : List String) (cells : List Cell) (B : List String),
    B.Nodup → (∀ c ∈ B, c ∉ A) → cells.length = (A ++ B).length →
    B.map (getCellD (A ++ B) cells) = cells.drop A.length
  | [], cells, B, hnd, _, hlen => by
    simpa using map_getCellD_self B cells hnd (by simpa using hlen)
  | a :: A, [], B, hnd, hni, hlen => by simp at hlen
  | a :: A, x :: cells, B, hnd, hni, hlen => by
    rw [List.cons_append]
    rw [List.map_congr_left (fun c hc =>
      getCellD_cons_ne a x (A ++ B) cells c (fun he => hni c hc (he ▸ List.mem_cons_self a A)))]
    rw [map_getCellD_drop A cells B hnd (fun c hc h => hni c hc (List.mem_cons_of_mem a h))
      (by simpa using hlen)]
    rfl

lemma dropCols_snp (df : DFrame) (bins : List String)
    (hcols : df.cols = SNP_COLUMNS ++ bins)
    (hnd : bins.Nodup)
    (hdisj : ∀ c ∈ bins, c ∉ SNP_COLUMNS)
    (halign : ∀ r ∈ df.rows, r.2.length = SNP_COLUMNS.length + bins.length) :
    dropCols df SNP_COLUMNS =
      ⟨bins, df.rows.map (fun r => (r.1, r.2.drop SNP_COLUMNS.length))⟩ := by
  have hkeep : df.cols.filter (fun c => !(SNP_COLUMNS.contains c)) = bins := by
    rw [hcols, List.filter_append]
    have h1 : SNP_COLUMNS.filter (fun c => !(SNP_COLUMNS.contains c)) = [] := by decide
    have h2 : bins.filter (fun c => !(SNP_COLUMNS.contains c)) = bins := by
      rw [List.filter_eq_self]
      intro c hc
      simp only [Bool.not_eq_true', List.contains, List.elem_eq_mem, decide_eq_false_iff_not]
      exact hdisj c hc
    rw [h1, h2, List.nil_append]
  simp only [dropCols]
  rw [hkeep]
  congr 1
  refine List.map_congr_left ?_
  intro r hr
  congr 1
  rw [hcols]
  exact map_getCellD_drop SNP_COLUMNS r.2 bins hnd hdisj (by rw [List.length_append]; exact halign r hr)

lemma sum_map_add_nat {α : Type} (l : List α) (f g : α → ℕ) :
    (l.map (fun x => f x + g x)).sum = (l.map f).sum + (l.map g).sum := by
  induction l with
  | nil => rfl
  | cons x l ih =>
    simp only [List.map_cons, List.sum_cons, ih]
    omega

lemma cellVal_eq_indicator (c : Cell) (h : isBoolCell c = true) :
    cellVal c = if isTrueCell c then 1 else 0 := by
  rcases c with s | n | q | b <;> simp [isBoolCell] at h ⊢
  rcases b <;> simp [cellVal, isTrueCell]

lemma sum_cellVal_eq_filter_length {α : Type} (rows : List α) (f : α → Cell)
    (hbool : ∀ r ∈ rows, isBoolCell (f r) = true) :
    (rows.map (fun r => cellVal (f r))).sum =
      (rows.filter (fun r => isTrueCell (f r))).length := by
  induction rows with
  | nil => rfl
  | cons r rows ih =>
    simp only [List.map_cons, List.sum_cons, List.filter_cons]
    rw [cellVal_eq_indicator (f r) (hbool r (by simp)),
      ih (fun r hr => hbool r (by simp [hr]))]
    cases h : isTrueCell (f r) with
    | false => simp
    | true =>
      simp
      omega

lemma sum_range_getD (cells : List Cell) :
    ((List.range cells.length).map (fun j => cellVal (cells.getD j (Cell.str "")))).sum =
      (cells.map cellVal).sum := by
  induction cells with
  | nil => rfl
  | cons x cells ih =>
    rw [List.length_cons, List.range_succ_eq_map, List.map_cons, List.map_map, List.sum_cons,
      List.map_cons, List.sum_cons]
    refine congrArg₂ (· + ·) rfl ?_
    rw [← ih]
    exact congrArg List.sum (List.map_congr_left (fun j _ => rfl))

lemma sum_map_cellVal_eq_countP : ∀ (cells : List Cell),
    (∀ c ∈ cells, isBoolCell c = true) →
    (cells.map cellVal).sum = cells.countP isTrueCell
  | [], _ => rfl
  | c :: cells, hb => by
    simp only [List.map_cons, List.sum_cons, List.countP_cons]
    rw [cellVal_eq_indicator c (hb c (by simp)),
      sum_map_cellVal_eq_countP cells (fun d hd => hb d (by simp [hd]))]
    cases h : isTrueCell c with
    | false => simp
    | true =>
      simp
      omega

lemma getD_drop (l : List Cell) (n j : ℕ) (d : Cell) :
    (l.drop n).getD j d = l.getD (n + j) d := by
  simp [List.getD_eq_getElem?_getD, List.getElem?_drop]

lemma sum_counts (B : ℕ) : ∀ (rows : List (String × List Cell)),
    (∀ r ∈ rows, (r.2.drop SNP_COLUMNS.length).countP isTrueCell = 1 ∧
      (r.2.drop SNP_COLUMNS.length).length = B ∧
      ∀ c ∈ r.2.drop SNP_COLUMNS.length, isBoolCell c = true) →
    ((List.range B).map (fun j =>
      (rows.map (fun r =>
        cellVal ((r.2.drop SNP_COLUMNS.length).getD j (Cell.str "")))).sum)).sum
      = rows.length
  | [], _ => by simp
  | r :: rows, h => by
    have hr := h r (by simp)
    have ih := sum_counts B rows (fun r' hr' => h r' (by simp [hr']))
    simp only [List.map_cons, List.sum_cons]
    rw [sum_map_add_nat, ih]
    have h1 : ((List.range B).map (fun j =>
        cellVal ((r.2.drop SNP_COLUMNS.length).getD j (Cell.str "")))).sum = 1 := by
      rw [← hr.2.1, sum_range_getD, sum_map_cellVal_eq_countP _ hr.2.2, hr.1]
    rw [h1, List.length_cons]
    omega

/-- C8: bin-size aggregation.  For any one-hot bin matrix of the persisted
shape, the binsize table lists the bin numbers 1..K+1 in ascending order,
the count recorded for each bin equals the number of rows whose cell in that
bin's column is `true`, the counts sum to the number of rows (the size of
the universe), and the file serialization is tab-delimited with header
columns `BIN` and `BIN_SIZE`. -/
theorem claim8_binsize_aggregation (df : DFrame) (bins : List String)
    (hcols : df.cols = SNP_COLUMNS ++ bins)
    (hnd : bins.Nodup)
    (hdisj : ∀ c ∈ bins, c ∉ SNP_COLUMNS)
    (halign : ∀ r ∈ df.rows, r.2.length = SNP_COLUMNS.length + bins.length)
    (honehot : ∀ r ∈ df.rows, oneHotCells (r.2.drop SNP_COLUMNS.length) = true) :
    (binsizeOf df).map Prod.fst = List.range' 1 bins.length ∧
    (binsizeOf df).map Prod.snd = (List.range bins.length).map (fun j =>
      (df.rows.filter (fun r =>
        isTrueCell (r.2.getD (SNP_COLUMNS.length + j) (Cell.str "")))).length) ∧
    ((binsizeOf df).map Prod.snd).sum = df.rows.length ∧
    binsizeCsv (binsizeOf df) = ("BIN" ++ "\t" ++ "BIN_SIZE") ::
      (binsizeOf df).map (fun p => toString p.1 ++ "\t" ++ toString p.2) := by
  have hparts : ∀ r ∈ df.rows, (r.2.drop SNP_COLUMNS.length).countP isTrueCell = 1 ∧
      (r.2.drop SNP_COLUMNS.length).length = bins.length ∧
      ∀ c ∈ r.2.drop SNP_COLUMNS.length, isBoolCell c = true := by
    intro r hr
    have h := honehot r hr
    rw [oneHotCells, Bool.and_eq_true, decide_eq_true_iff, List.all_eq_true] at h
    exact ⟨h.1, by rw [List.length_drop, halign r hr]; omega, h.2⟩
  have hnb : df.cols.length - SNP_COLUMNS.length = bins.length := by
    rw [hcols, List.length_append]
    omega
  have hdrop := dropCols_snp df bins hcols hnd hdisj halign
  have hcs0 : colSums (dropCols df SNP_COLUMNS) = (List.range bins.length).map (fun j =>
      (df.rows.map (fun r =>
        cellVal ((r.2.drop SNP_COLUMNS.length).getD j (Cell.str "")))).sum) := by
    rw [hdrop, colSums]
    dsimp only
    simp only [List.map_map]
    rfl
  have hcs1 : colSums (dropCols df SNP_COLUMNS) = (List.range bins.length).map (fun j =>
      (df.rows.filter (fun r =>
        isTrueCell (r.2.getD (SNP_COLUMNS.length + j) (Cell.str "")))).length) := by
    rw [hcs0]
    refine List.map_congr_left ?_
    intro j hj
    rw [List.mem_range] at hj
    have hbool : ∀ r ∈ df.rows,
        isBoolCell (r.2.getD (SNP_COLUMNS.length + j) (Cell.str "")) = true := by
      intro r hr
      have hlt : j < (r.2.drop SNP_COLUMNS.length).length := by
        rw [(hparts r hr).2.1]
        exact hj
      rw [← getD_drop, List.getD_eq_getElem _ _ hlt]
      exact (hparts r hr).2.2 _ (List.getElem_mem hlt)
    calc (df.rows.map (fun r =>
        cellVal ((r.2.drop SNP_COLUMNS.length).getD j (Cell.str "")))).sum
        = (df.rows.map (fun r =>
            cellVal (r.2.getD (SNP_COLUMNS.length + j) (Cell.str "")))).sum := by
          refine congrArg List.sum (List.map_congr_left ?_)
          intro r _
          rw [getD_drop]
      _ = (df.rows.filter (fun r =>
            isTrueCell (r.2.getD (SNP_COLUMNS.length + j) (Cell.str "")))).length :=
          sum_cellVal_eq_filter_length df.rows _ hbool
  have hlen0 : (colSums (dropCols df SNP_COLUMNS)).length = bins.length := by
    rw [hcs0, List.length_map, List.length_range]
  refine ⟨?_, ?_, ?_, rfl⟩
  · rw [binsizeOf, hnb]
    exact List.map_fst_zip _ _ (by rw [hlen0, List.length_range'])
  · rw [binsizeOf, hnb, List.map_snd_zip _ _ (by rw [hlen0, List.length_range']), hcs1]
  · rw [binsizeOf, hnb, List.map_snd_zip _ _ (by rw [hlen0, List.length_range']), hcs0]
    exact sum_counts bins.length df.rows hparts

theorem claim8_witness :
    (binsFull.cols = SNP_COLUMNS ++ ["snpvar_bin1", "snpvar_bin2", "snpvar_bin3"] ∧
      (["snpvar_bin1", "snpvar_bin2", "snpvar_bin3"] : List String).Nodup ∧
      (∀ c ∈ ["snpvar_bin1", "snpvar_bin2", "snpvar_bin3"], c ∉ SNP_COLUMNS) ∧
      (∀ r ∈ binsFull.rows,
        r.2.length = SNP_COLUMNS.length + ["snpvar_bin1", "snpvar_bin2", "snpvar_bin3"].length) ∧
      (∀ r ∈ binsFull.rows, oneHotCells (r.2.drop SNP_COLUMNS.length) = true)) ∧
    ((binsizeOf binsFull).map Prod.fst =
        List.range' 1 ["snpvar_bin1", "snpvar_bin2", "snpvar_bin3"].length ∧
      (binsizeOf binsFull).map Prod.snd =
        (List.range ["snpvar_bin1", "snpvar_bin2", "snpvar_bin3"].length).map (fun j =>
          (binsFull.rows.filter (fun r =>
            isTrueCell (r.2.getD (SNP_COLUMNS.length + j) (Cell.str "")))).length) ∧
      ((binsizeOf binsFull).map Prod.snd).sum = binsFull.rows.length ∧
      binsizeCsv (binsizeOf binsFull) = ("BIN" ++ "\t" ++ "BIN_SIZE") ::
        (binsizeOf binsFull).map (fun p => toString p.1 ++ "\t" ++ toString p.2)) :=
  ⟨⟨by decide, by decide, by decide, by decide, by decide⟩,
    claim8_binsize_aggregation binsFull ["snpvar_bin1", "snpvar_bin2", "snpvar_bin3"]
      (by decide) (by decide) (by decide) (by decide) (by decide)⟩

end PolyLoc
